import Mathlib

/-!
# Password generator: `script.js`

A shallow embedding of `secureRandomInt`, `generatePassword` and `updateStrength`
of `src/script.js`, and the properties of the specification settled on it.

Conventions of the embedding.

* A JavaScript string is a `String`.  Its `.length` is the number of UTF-16 code units,
  `jsLength`: a character from `U+10000` on counts twice.  Every string this script
  builds is ASCII, where `jsLength` is the number of characters.  The regular
  expressions of `updateStrength` and `startsWith('Choose')` only look for ASCII
  characters, which are never half of a surrogate pair, so they are tested on the
  characters.
* The part of the page the two functions read and write is the record `Dom`.
* The secure generator is a stream `rs : Nat → Nat`: `rs p` is the value that the
  `p`-th call of `window.crypto.getRandomValues` writes into `arr[0]`.  Only the
  branch of `secureRandomInt` that uses `window.crypto` is modelled; the other
  branch computes `Math.floor(Math.random() * max)` in floating point.
* An array read `a[k]` is `a[k]?`; `none` is JavaScript's `undefined`.
-/

namespace PasswordGenerator

/-! ## Constants (lines 1-4) -/

def LOWER : List Char := "abcdefghijklmnopqrstuvwxyz".toList
def UPPER : List Char := "ABCDEFGHIJKLMNOPQRSTUVWXYZ".toList
def NUMS : List Char := "0123456789".toList
def SYMS : List Char := "!@#$%^&*()-_=+[]\x7b\x7d;:,.<>/?|~".toList

/-! ## The page -/

/-- The elements of the page that `generatePassword` and `updateStrength` touch. -/
structure Dom where
  /-- `parseInt(lengthRange.value, 10)`: an integer, or `none` for `NaN`. -/
  length : Option Int
  /-- `cbLower.checked` -/
  lower : Bool
  /-- `cbUpper.checked` -/
  upper : Bool
  /-- `cbNums.checked` -/
  nums : Bool
  /-- `cbSyms.checked` -/
  syms : Bool
  /-- The value of the CSS variable `--danger` of the document element. -/
  danger : String
  /-- `pwBox.textContent` -/
  pw : String
  /-- `strengthBar.style.width`, as the number before the `%` sign. -/
  barWidth : Nat
  /-- `strengthBar.style.background` -/
  barBackground : String
  /-- `strengthText.textContent` -/
  strengthText : String
deriving DecidableEq, Repr

/-! ## `secureRandomInt` (lines 30-38) -/

/-- `secureRandomInt(max)` on the branch that uses `window.crypto`: `r` is the value
written into the one-element `Uint32Array`, so it is reduced to 32 bits, and the
function returns `arr[0] % max`. -/
def secureRandomInt (r : Nat) (max : Nat) : Nat :=
  (r % 2 ^ 32) % max

/-! ## `updateStrength` (lines 82-117) -/

/-- `password.length`: the number of UTF-16 code units of the string, one for a character
below `U+10000` and two for any other. -/
def jsLength (password : String) : Nat :=
  (password.data.map (fun c => if c.toNat < 0x10000 then 1 else 2)).sum

/-- `/[a-z]/.test(password)` -/
def hasLower (password : String) : Bool :=
  password.data.any (fun c => decide ('a' ≤ c ∧ c ≤ 'z'))

/-- `/[A-Z]/.test(password)` -/
def hasUpper (password : String) : Bool :=
  password.data.any (fun c => decide ('A' ≤ c ∧ c ≤ 'Z'))

/-- `/[0-9]/.test(password)` -/
def hasNum (password : String) : Bool :=
  password.data.any (fun c => decide ('0' ≤ c ∧ c ≤ '9'))

/-- The characters of the class `[!@#$%^&*()_\-+=\[\]{};:,.<>\/?\\|~]` of line 100. -/
def symClass : List Char := "!@#$%^&*()_-+=[]\x7b\x7d;:,.<>/?\\|~".toList

/-- `/[!@#$%^&*()_\-+=\[\]{};:,.<>\/?\\|~]/.test(password)` -/
def hasSym (password : String) : Bool :=
  password.data.any (fun c => decide (c ∈ symClass))

/-- The `score` of lines 90-103. -/
def score (password : String) : Nat :=
  let length := jsLength password
  let s1 := if length ≥ 8 then 1 else 0
  let s2 := if length ≥ 12 then s1 + 1 else s1
  let s3 := if length ≥ 16 then s2 + 1 else s2
  let variety := ([hasLower password, hasUpper password, hasNum password,
    hasSym password].filter id).length
  s3 + min 3 variety

/-- `Math.round((score / 6) * 100)`.  `Math.round` rounds a half upwards, so the exact
value is `⌊score * 100 / 6 + 1 / 2⌋`.  For the seven scores `0..6` the double computed by
`(score / 6) * 100` is `0`, `50`, `100` or lies more than `0.1` away from a half-integer,
so the rounding of the double and of the exact quotient agree. -/
def pctOf (score : Nat) : Nat :=
  (2 * (score * 100) + 6) / 12

/-- `updateStrength(password)`: the page after the call. -/
def updateStrength (d : Dom) (password : String) : Dom :=
  if password.data = [] ∨ "Choose".data.isPrefixOf password.data ∨ jsLength password = 0 then
    { d with barWidth := 0, barBackground := "#ef4444", strengthText := "—" }
  else
    let pct := pctOf (score password)
    if pct ≥ 80 then
      { d with barWidth := pct, barBackground := "#16a34a", strengthText := "Excellent" }
    else if pct ≥ 60 then
      { d with barWidth := pct, barBackground := "#22c55e", strengthText := "Strong" }
    else if pct ≥ 40 then
      { d with barWidth := pct, barBackground := "#f59e0b", strengthText := "Medium" }
    else
      { d with barWidth := pct, barBackground := "#ef4444", strengthText := "Weak" }

/-! ## `generatePassword` (lines 41-79) -/

/-- The `pool` built by lines 43-49. -/
def pool (d : Dom) : List Char :=
  (if d.lower then LOWER else []) ++ (if d.upper then UPPER else []) ++
    (if d.nums then NUMS else []) ++ (if d.syms then SYMS else [])

/-- The `chosenSets` built by lines 44-49. -/
def chosenSets (d : Dom) : List (List Char) :=
  (if d.lower then [LOWER] else []) ++ (if d.upper then [UPPER] else []) ++
    (if d.nums then [NUMS] else []) ++ (if d.syms then [SYMS] else [])

/-- The loop of lines 61-63: the elements pushed for the sets still to visit, the first
call of `secureRandomInt` taking the draw at position `p`. -/
def seedChars (rs : Nat → Nat) : List (List Char) → Nat → List (Option Char)
  | [], _ => []
  | set :: rest, p => set[secureRandomInt (rs p) set.length]? :: seedChars rs rest (p + 1)

/-- The loop of lines 65-67: the elements pushed by `count` iterations, the first call of
`secureRandomInt` taking the draw at position `p`. -/
def fillChars (rs : Nat → Nat) (pool : List Char) : Nat → Nat → List (Option Char)
  | 0, _ => []
  | count + 1, p =>
    pool[secureRandomInt (rs p) pool.length]? :: fillChars rs pool count (p + 1)

/-- The destructuring assignment `[a[i], a[j]] = [a[j], a[i]]` of line 72 for indices
inside the array (the loop only produces `0 ≤ j ≤ i < a.length`). -/
def swap {α : Type} (a : List α) (i j : Nat) : List α :=
  match a[i]?, a[j]? with
  | some x, some y => (a.set i y).set j x
  | _, _ => a

/-- The loop of lines 70-73, started at index `i` and run down to `1`; `pick k` is the
value that `secureRandomInt(k + 1)` returns in the iteration with index `k`. -/
def fisherYates {α : Type} (pick : Nat → Nat) : Nat → List α → List α
  | 0, a => a
  | i + 1, a => fisherYates pick i (swap a (i + 1) (pick (i + 1)))

/-- The number of iterations of the loop of lines 65-67 when `k` elements are in the
array: `length - k` if that is positive, none otherwise (`i < NaN` is false). -/
def fillCount (length : Option Int) (k : Nat) : Nat :=
  match length with
  | some length => (length - (k : Int)).toNat
  | none => 0

/-- The value of `passwordChars` when line 75 is reached: seeded, filled up to `length`
and shuffled.  The iteration with index `i` of the shuffle is the `(n - 1 - i)`-th one,
where `n` is the length of the array, and takes the next draw of the stream. -/
def passwordChars (d : Dom) (rs : Nat → Nat) : List (Option Char) :=
  let sets := chosenSets d
  let seeded := seedChars rs sets 0
  let filled := seeded ++ fillChars rs (pool d) (fillCount d.length seeded.length) seeded.length
  let n := filled.length
  fisherYates (fun i => secureRandomInt (rs (n + (n - 1 - i))) (i + 1)) (n - 1) filled

/-- `passwordChars.join('')`: an `undefined` element contributes the empty string. -/
def join (a : List (Option Char)) : String :=
  String.mk (a.filterMap id)

/-- What a call of `generatePassword` leaves behind. -/
structure Outcome where
  /-- The returned value; `none` is `undefined`. -/
  ret : Option String
  /-- The page after the call. -/
  dom : Dom
  /-- The number of calls of `secureRandomInt`. -/
  draws : Nat
deriving DecidableEq, Repr

/-- `generatePassword()` on the page `d` with the stream of draws `rs`. -/
def generatePassword (d : Dom) (rs : Nat → Nat) : Outcome :=
  if pool d = [] then
    { ret := none
      dom := { d with
        pw := "Choose at least one character type"
        barWidth := 0
        barBackground := if d.danger = "" then "#ef4444" else d.danger
        strengthText := "N/A" }
      draws := 0 }
  else
    let chars := passwordChars d rs
    let password := join chars
    { ret := some password
      dom := updateStrength { d with pw := password } password
      draws := chars.length + (chars.length - 1) }

/-! ## Notions used to state the properties -/

/-- The number of checked boxes among the four character types. -/
def enabledCount (d : Dom) : Nat :=
  (if d.lower then 1 else 0) + (if d.upper then 1 else 0) + (if d.nums then 1 else 0) +
    (if d.syms then 1 else 0)

/-- The swap index of the iteration with index `i`, read off the sequence of draws
`(j_{n-1}, ..., j_1)` of a shuffle of `n` elements: the draws are listed in the order in
which the loop makes them. -/
def drawAt (js : List Nat) (n i : Nat) : Nat :=
  js.getD (n - 1 - i) 0

/-- The list `js` is a sequence of draws `(j_{n-1}, ..., j_1)` with `0 ≤ j_i ≤ i`. -/
def ValidDraws (n : Nat) (js : List Nat) : Prop :=
  js.length = n - 1 ∧ ∀ i, i < n → 1 ≤ i → drawAt js n i ≤ i

instance (n : Nat) (js : List Nat) : Decidable (ValidDraws n js) := by
  unfold ValidDraws
  infer_instance

/-- The loop of lines 70-73 on the array `a`, with `js` the values returned by the calls
of `secureRandomInt`. -/
def shuffle {α : Type} (a : List α) (js : List Nat) : List α :=
  fisherYates (drawAt js a.length) (a.length - 1) a

/-! ## The reference estimator of the specification (section 4.3) -/

/-- The result of the reference estimator of the specification. -/
structure StrengthResult where
  /-- The percentage, `0` to `100`. -/
  percentage : Int
  /-- The label. -/
  label : String
deriving DecidableEq, Repr

/-- The number of the classes lowercase, uppercase, digit and symbol, given by their pools,
of which the password contains a character. -/
def classesPresent (symbols : List Char) (password : String) : Nat :=
  ([LOWER, UPPER, NUMS, symbols].filter
    (fun cls => password.data.any (fun c => decide (c ∈ cls)))).length

/-- The score of the reference estimator: one point for each of the length thresholds
`8`, `12`, `16` that is reached, plus the number of classes present, capped at `3`.  The
length is the length of the JavaScript string, `jsLength`; on characters below `U+10000`
it is the number of characters (`jsLength_eq_length`). -/
def estimateScore (symbols : List Char) (password : String) : Nat :=
  (if jsLength password ≥ 8 then 1 else 0) + (if jsLength password ≥ 12 then 1 else 0) +
    (if jsLength password ≥ 16 then 1 else 0) + min 3 (classesPresent symbols password)

/-- The label of a percentage in the reference estimator. -/
def estimateLabel (percentage : Int) : String :=
  if percentage ≥ 80 then "Excellent"
  else if percentage ≥ 60 then "Strong"
  else if percentage ≥ 40 then "Medium"
  else "Weak"

/-- The reference estimator of the specification, for a given set of symbol characters:
the empty password has percentage `0` and the placeholder label; otherwise the percentage
is `round (score / 6 * 100)` and the label follows the thresholds. -/
def estimate (symbols : List Char) (password : String) : StrengthResult :=
  if password = "" then { percentage := 0, label := "—" }
  else
    { percentage := round ((estimateScore symbols password : ℚ) / 6 * 100)
      label := estimateLabel (round ((estimateScore symbols password : ℚ) / 6 * 100)) }

/-! ## Concrete pages and inputs -/

/-- A page with the four boxes checked and the requested length `12`. -/
def sampleDom : Dom :=
  { length := some 12, lower := true, upper := true, nums := true, syms := true,
    danger := "", pw := "", barWidth := 0, barBackground := "", strengthText := "" }

/-- A page with the box of the lowercase letters checked and the requested length `0`. -/
def zeroLengthDom : Dom :=
  { length := some 0, lower := true, upper := false, nums := false, syms := false,
    danger := "", pw := "", barWidth := 0, barBackground := "", strengthText := "" }

/-- A page with no box checked. -/
def noSelectionDom : Dom :=
  { length := some 12, lower := false, upper := false, nums := false, syms := false,
    danger := "", pw := "", barWidth := 50, barBackground := "", strengthText := "Medium" }

/-! ## Lemmas on `swap` and the shuffle -/

theorem swap_length {α : Type} (a : List α) (i j : Nat) : (swap a i j).length = a.length := by
  unfold swap
  split <;> simp

theorem swap_eq_of_lt {α : Type} (a : List α) {i j : Nat} (hi : i < a.length)
    (hj : j < a.length) : swap a i j = (a.set i a[j]).set j a[i] := by
  unfold swap
  rw [List.getElem?_eq_getElem hi, List.getElem?_eq_getElem hj]

theorem swap_perm {α : Type} (a : List α) (i j : Nat) : (swap a i j).Perm a := by
  classical
  by_cases hi : i < a.length
  · by_cases hj : j < a.length
    · rw [swap_eq_of_lt a hi hj, List.perm_iff_count]
      intro b
      have hj2 : j < (a.set i a[j]).length := by simpa using hj
      rw [List.count_set _ _ _ _ hj2, List.count_set _ _ _ _ hi]
      have hget : (a.set i a[j])[j] = a[j] := by
        rw [List.getElem_set]
        split
        · rfl
        · rfl
      rw [hget]
      have hpos : (if a[i] == b then 1 else 0) ≤ a.count b := by
        split
        · rename_i h
          have : a[i] = b := by simpa using h
          have hmem : b ∈ a := this ▸ List.getElem_mem hi
          exact List.count_pos_iff.mpr hmem
        · exact Nat.zero_le _
      omega
    · unfold swap
      rw [List.getElem?_eq_none (by omega : a.length ≤ j)]
      split
      · rename_i h1 h2
        cases h2
      · exact List.Perm.refl a
  · unfold swap
    rw [List.getElem?_eq_none (by omega : a.length ≤ i)]

theorem fisherYates_perm {α : Type} (pick : Nat → Nat) (i : Nat) (a : List α) :
    (fisherYates pick i a).Perm a := by
  induction i generalizing a with
  | zero => exact List.Perm.refl a
  | succ i ih => exact (ih _).trans (swap_perm a _ _)

theorem fisherYates_length {α : Type} (pick : Nat → Nat) (i : Nat) (a : List α) :
    (fisherYates pick i a).length = a.length :=
  (fisherYates_perm pick i a).length_eq

/-! ## Lemmas on the pools and on the phases of `generatePassword` -/

theorem LOWER_ne_nil : LOWER ≠ [] := by decide
theorem UPPER_ne_nil : UPPER ≠ [] := by decide
theorem NUMS_ne_nil : NUMS ≠ [] := by decide
theorem SYMS_ne_nil : SYMS ≠ [] := by decide

theorem chosenSets_length (d : Dom) : (chosenSets d).length = enabledCount d := by
  unfold chosenSets enabledCount
  cases d.lower <;> cases d.upper <;> cases d.nums <;> cases d.syms <;> rfl

theorem pool_eq_nil_iff (d : Dom) : pool d = [] ↔ enabledCount d = 0 := by
  unfold pool enabledCount
  cases d.lower <;> cases d.upper <;> cases d.nums <;> cases d.syms <;>
    simp [LOWER_ne_nil, UPPER_ne_nil, NUMS_ne_nil, SYMS_ne_nil]

theorem mem_chosenSets (d : Dom) (s : List Char) :
    s ∈ chosenSets d ↔ (d.lower = true ∧ s = LOWER) ∨ (d.upper = true ∧ s = UPPER) ∨
      (d.nums = true ∧ s = NUMS) ∨ (d.syms = true ∧ s = SYMS) := by
  unfold chosenSets
  cases d.lower <;> cases d.upper <;> cases d.nums <;> cases d.syms <;> simp

theorem mem_pool (d : Dom) (c : Char) :
    c ∈ pool d ↔ (d.lower = true ∧ c ∈ LOWER) ∨ (d.upper = true ∧ c ∈ UPPER) ∨
      (d.nums = true ∧ c ∈ NUMS) ∨ (d.syms = true ∧ c ∈ SYMS) := by
  unfold pool
  cases d.lower <;> cases d.upper <;> cases d.nums <;> cases d.syms <;> simp [or_assoc]

theorem chosenSets_ne_nil (d : Dom) (s : List Char) (hs : s ∈ chosenSets d) : s ≠ [] := by
  rcases (mem_chosenSets d s).mp hs with h | h | h | h
  · exact h.2 ▸ LOWER_ne_nil
  · exact h.2 ▸ UPPER_ne_nil
  · exact h.2 ▸ NUMS_ne_nil
  · exact h.2 ▸ SYMS_ne_nil

theorem chosenSets_subset_pool (d : Dom) (s : List Char) (hs : s ∈ chosenSets d) (c : Char)
    (hc : c ∈ s) : c ∈ pool d := by
  rw [mem_pool]
  rcases (mem_chosenSets d s).mp hs with h | h | h | h
  · exact Or.inl ⟨h.1, h.2 ▸ hc⟩
  · exact Or.inr (Or.inl ⟨h.1, h.2 ▸ hc⟩)
  · exact Or.inr (Or.inr (Or.inl ⟨h.1, h.2 ▸ hc⟩))
  · exact Or.inr (Or.inr (Or.inr ⟨h.1, h.2 ▸ hc⟩))

theorem secureRandomInt_lt (r max : Nat) (h : 0 < max) : secureRandomInt r max < max :=
  Nat.mod_lt _ h

theorem seedChars_length (rs : Nat → Nat) (sets : List (List Char)) (p : Nat) :
    (seedChars rs sets p).length = sets.length := by
  induction sets generalizing p with
  | nil => rfl
  | cons s rest ih => simp [seedChars, ih]

theorem fillChars_length (rs : Nat → Nat) (pl : List Char) (count p : Nat) :
    (fillChars rs pl count p).length = count := by
  induction count generalizing p with
  | zero => rfl
  | succ n ih => simp [fillChars, ih]

/-- Every element pushed by the seeding loop is a character of one of the sets, and every
set contributes one. -/
theorem seedChars_spec (rs : Nat → Nat) (sets : List (List Char)) (p : Nat)
    (hne : ∀ s ∈ sets, s ≠ []) :
    (∀ x ∈ seedChars rs sets p, ∃ c, x = some c ∧ ∃ s ∈ sets, c ∈ s) ∧
      (∀ s ∈ sets, ∃ c, some c ∈ seedChars rs sets p ∧ c ∈ s) := by
  induction sets generalizing p with
  | nil => simp [seedChars]
  | cons s rest ih =>
    have hs : s ≠ [] := hne s (List.mem_cons_self _ _)
    have hlt : secureRandomInt (rs p) s.length < s.length :=
      secureRandomInt_lt _ _ (List.length_pos.mpr hs)
    have hrest := ih (p + 1) (fun t ht => hne t (List.mem_cons_of_mem _ ht))
    have hhead : s[secureRandomInt (rs p) s.length]? = some s[secureRandomInt (rs p) s.length] :=
      List.getElem?_eq_getElem hlt
    constructor
    · intro x hx
      rw [seedChars, List.mem_cons] at hx
      rcases hx with hx | hx
      · exact ⟨_, hx.trans hhead, s, List.mem_cons_self _ _, List.getElem_mem hlt⟩
      · obtain ⟨c, hc, t, ht, hct⟩ := hrest.1 x hx
        exact ⟨c, hc, t, List.mem_cons_of_mem _ ht, hct⟩
    · intro t ht
      rw [List.mem_cons] at ht
      rcases ht with ht | ht
      · subst ht
        refine ⟨_, ?_, List.getElem_mem hlt⟩
        rw [seedChars, hhead]
        exact List.mem_cons_self _ _
      · obtain ⟨c, hc, hct⟩ := hrest.2 t ht
        refine ⟨c, ?_, hct⟩
        rw [seedChars]
        exact List.mem_cons_of_mem _ hc

/-- Every element pushed by the filling loop is a character of the pool. -/
theorem fillChars_spec (rs : Nat → Nat) (pl : List Char) (count p : Nat) (hne : pl ≠ []) :
    ∀ x ∈ fillChars rs pl count p, ∃ c, x = some c ∧ c ∈ pl := by
  induction count generalizing p with
  | zero => simp [fillChars]
  | succ n ih =>
    have hlt : secureRandomInt (rs p) pl.length < pl.length :=
      secureRandomInt_lt _ _ (List.length_pos.mpr hne)
    intro x hx
    rw [fillChars, List.mem_cons] at hx
    rcases hx with hx | hx
    · exact ⟨_, hx.trans (List.getElem?_eq_getElem hlt), List.getElem_mem hlt⟩
    · exact ih (p + 1) x hx

theorem passwordChars_perm (d : Dom) (rs : Nat → Nat) :
    (passwordChars d rs).Perm (seedChars rs (chosenSets d) 0 ++
      fillChars rs (pool d) (fillCount d.length (chosenSets d).length) (chosenSets d).length) := by
  unfold passwordChars
  simp only [seedChars_length]
  exact fisherYates_perm _ _ _

theorem passwordChars_length (d : Dom) (rs : Nat → Nat) :
    (passwordChars d rs).length = enabledCount d + fillCount d.length (enabledCount d) := by
  rw [(passwordChars_perm d rs).length_eq, List.length_append, seedChars_length,
    fillChars_length, chosenSets_length]

/-- No element of the array is `undefined`: every element is a character of the pool. -/
theorem passwordChars_mem (d : Dom) (rs : Nat → Nat) (hne : pool d ≠ []) :
    ∀ x ∈ passwordChars d rs, ∃ c, x = some c ∧ c ∈ pool d := by
  intro x hx
  have hx2 := (passwordChars_perm d rs).mem_iff.mp hx
  rw [List.mem_append] at hx2
  rcases hx2 with hx2 | hx2
  · obtain ⟨c, hc, s, hs, hcs⟩ :=
      (seedChars_spec rs (chosenSets d) 0 (chosenSets_ne_nil d)).1 x hx2
    exact ⟨c, hc, chosenSets_subset_pool d s hs c hcs⟩
  · exact fillChars_spec rs (pool d) _ _ hne x hx2

theorem filterMap_id_length {α : Type} (a : List (Option α)) (h : ∀ x ∈ a, ∃ c, x = some c) :
    (a.filterMap id).length = a.length := by
  induction a with
  | nil => rfl
  | cons x rest ih =>
    obtain ⟨c, hc⟩ := h x (List.mem_cons_self _ _)
    subst hc
    simp [ih (fun y hy => h y (List.mem_cons_of_mem _ hy))]

theorem join_length (d : Dom) (rs : Nat → Nat) (hne : pool d ≠ []) :
    (join (passwordChars d rs)).length = enabledCount d + fillCount d.length (enabledCount d) := by
  unfold join
  rw [String.length, filterMap_id_length, passwordChars_length]
  intro x hx
  obtain ⟨c, hc, _⟩ := passwordChars_mem d rs hne x hx
  exact ⟨c, hc⟩

theorem mem_join (a : List (Option Char)) (c : Char) : c ∈ (join a).data ↔ some c ∈ a := by
  unfold join
  simp [List.mem_filterMap]

theorem generatePassword_ret (d : Dom) (rs : Nat → Nat) (hne : pool d ≠ []) :
    (generatePassword d rs).ret = some (join (passwordChars d rs)) := by
  unfold generatePassword
  rw [if_neg hne]

/-! ## The generator -/

/-- C1: with a requested length `L` and `k ≥ 1` checked boxes, `generatePassword` returns
a password of exactly `L` characters when `L ≥ k`, of exactly `k` characters when `L < k`,
and so of at least `max L k` characters, whatever the draws are.  This holds for every
integer `L`, in particular for `L ≥ 1`. -/
theorem generatePassword_length (d : Dom) (rs : Nat → Nat) (L : Int) (hd : d.length = some L)
    (hk : 1 ≤ enabledCount d) :
    ∃ password, (generatePassword d rs).ret = some password ∧
      ((enabledCount d : Int) ≤ L → (password.length : Int) = L) ∧
      (L < (enabledCount d : Int) → password.length = enabledCount d) ∧
      max L (enabledCount d : Int) ≤ (password.length : Int) := by
  have hne : pool d ≠ [] := by
    rw [Ne, pool_eq_nil_iff]
    omega
  refine ⟨_, generatePassword_ret d rs hne, ?_, ?_, ?_⟩ <;>
    rw [join_length d rs hne, hd] <;> simp only [fillCount] <;> omega

/-- C2: with at least one checked box, the returned password contains a character of
`LOWER`, `UPPER`, `NUMS`, `SYMS` for each of these whose box is checked, whatever the
requested length (in particular for every `L ≥ 1`) and the draws are. -/
theorem generatePassword_covers (d : Dom) (rs : Nat → Nat) (hk : 1 ≤ enabledCount d) :
    ∃ password, (generatePassword d rs).ret = some password ∧
      (d.lower = true → ∃ c ∈ password.data, c ∈ LOWER) ∧
      (d.upper = true → ∃ c ∈ password.data, c ∈ UPPER) ∧
      (d.nums = true → ∃ c ∈ password.data, c ∈ NUMS) ∧
      (d.syms = true → ∃ c ∈ password.data, c ∈ SYMS) := by
  have hne : pool d ≠ [] := by
    rw [Ne, pool_eq_nil_iff]
    omega
  have key : ∀ s ∈ chosenSets d, ∃ c ∈ (join (passwordChars d rs)).data, c ∈ s := by
    intro s hs
    obtain ⟨c, hc, hcs⟩ := (seedChars_spec rs (chosenSets d) 0 (chosenSets_ne_nil d)).2 s hs
    refine ⟨c, ?_, hcs⟩
    rw [mem_join]
    exact (passwordChars_perm d rs).mem_iff.mpr (List.mem_append_left _ hc)
  refine ⟨_, generatePassword_ret d rs hne, ?_, ?_, ?_, ?_⟩
  · exact fun h => key LOWER ((mem_chosenSets d _).mpr (Or.inl ⟨h, rfl⟩))
  · exact fun h => key UPPER ((mem_chosenSets d _).mpr (Or.inr (Or.inl ⟨h, rfl⟩)))
  · exact fun h => key NUMS ((mem_chosenSets d _).mpr (Or.inr (Or.inr (Or.inl ⟨h, rfl⟩))))
  · exact fun h => key SYMS ((mem_chosenSets d _).mpr (Or.inr (Or.inr (Or.inr ⟨h, rfl⟩))))

/-- C3: when no box is checked, whatever the requested length is, `generatePassword`
returns `undefined`, calls `secureRandomInt` not once, shows the text
`Choose at least one character type`, sets the width of the strength bar to `0%` and the
strength text to `N/A`; the rest of the page is as before. -/
theorem generatePassword_no_selection (d : Dom) (rs : Nat → Nat)
    (h : d.lower = false ∧ d.upper = false ∧ d.nums = false ∧ d.syms = false) :
    (generatePassword d rs).ret = none ∧ (generatePassword d rs).draws = 0 ∧
      (generatePassword d rs).dom = { d with
        pw := "Choose at least one character type"
        barWidth := 0
        barBackground := if d.danger = "" then "#ef4444" else d.danger
        strengthText := "N/A" } := by
  obtain ⟨h1, h2, h3, h4⟩ := h
  have hp : pool d = [] := by simp [pool, h1, h2, h3, h4]
  unfold generatePassword
  rw [if_pos hp]
  exact ⟨rfl, rfl, rfl⟩

/-- C10: with at least one checked box, every character of the returned password is in
the pool of the checked boxes; a character of `LOWER`, `UPPER`, `NUMS` or `SYMS` occurs
only if the box of that set is checked. -/
theorem generatePassword_chars_in_pool (d : Dom) (rs : Nat → Nat) (hk : 1 ≤ enabledCount d) :
    ∃ password, (generatePassword d rs).ret = some password ∧
      ∀ c ∈ password.data, c ∈ pool d ∧ (c ∈ LOWER → d.lower = true) ∧
        (c ∈ UPPER → d.upper = true) ∧ (c ∈ NUMS → d.nums = true) ∧
        (c ∈ SYMS → d.syms = true) := by
  have hne : pool d ≠ [] := by
    rw [Ne, pool_eq_nil_iff]
    omega
  refine ⟨_, generatePassword_ret d rs hne, ?_⟩
  intro c hc
  rw [mem_join] at hc
  obtain ⟨c2, hc2, hpool⟩ := passwordChars_mem d rs hne _ hc
  cases hc2
  refine ⟨hpool, ?_⟩
  have hLU : ∀ x ∈ LOWER, x ∉ UPPER ∧ x ∉ NUMS ∧ x ∉ SYMS := by decide
  have hUN : ∀ x ∈ UPPER, x ∉ NUMS ∧ x ∉ SYMS := by decide
  have hNS : ∀ x ∈ NUMS, x ∉ SYMS := by decide
  rw [mem_pool] at hpool
  rcases hpool with ⟨hb, hm⟩ | ⟨hb, hm⟩ | ⟨hb, hm⟩ | ⟨hb, hm⟩
  · exact ⟨fun _ => hb, fun h => absurd h (hLU c hm).1, fun h => absurd h (hLU c hm).2.1,
      fun h => absurd h (hLU c hm).2.2⟩
  · exact ⟨fun h => absurd hm (hLU c h).1, fun _ => hb, fun h => absurd h (hUN c hm).1,
      fun h => absurd h (hUN c hm).2⟩
  · exact ⟨fun h => absurd hm (hLU c h).2.1, fun h => absurd hm (hUN c h).1, fun _ => hb,
      fun h => absurd h (hNS c hm)⟩
  · exact ⟨fun h => absurd hm (hLU c h).2.2, fun h => absurd hm (hUN c h).2,
      fun h => absurd hm (hNS c h), fun _ => hb⟩

/-- C8, as stated, fails: with the requested length `0` and one box checked, the call
returns the one-character password `f` (the draw is `5`) and shows it. -/
theorem generatePassword_zero_length_not_rejected :
    (generatePassword zeroLengthDom (fun _ => 5)).ret = some "f" ∧
      (generatePassword zeroLengthDom (fun _ => 5)).dom.pw = "f" := by
  decide

/-- C8, amended: with a requested length `L ≤ 0` and `k ≥ 1` checked boxes,
`generatePassword` does not reject the request: it returns and shows a password of
exactly `k` characters. -/
theorem generatePassword_nonpositive_length (d : Dom) (rs : Nat → Nat) (L : Int)
    (hd : d.length = some L) (hL : L ≤ 0) (hk : 1 ≤ enabledCount d) :
    ∃ password, (generatePassword d rs).ret = some password ∧
      (generatePassword d rs).dom.pw = password ∧
      password.length = enabledCount d := by
  have hne : pool d ≠ [] := by
    rw [Ne, pool_eq_nil_iff]
    omega
  refine ⟨_, generatePassword_ret d rs hne, ?_, ?_⟩
  · unfold generatePassword
    rw [if_neg hne]
    simp only [updateStrength]
    split_ifs <;> rfl
  · rw [join_length d rs hne]
    rw [hd]
    simp only [fillCount]
    omega

/-! ## The strength estimator -/

theorem mem_LOWER_iff (c : Char) : c ∈ LOWER ↔ 'a' ≤ c ∧ c ≤ 'z' := by
  constructor
  · revert c
    decide
  · rintro ⟨h1, h2⟩
    have h1n : 97 ≤ c.toNat := h1
    have h2n : c.toNat ≤ 122 := h2
    have key : ∀ n < 123, 97 ≤ n → Char.ofNat n ∈ LOWER := by decide
    have := key c.toNat (by omega) h1n
    rwa [Char.ofNat_toNat] at this

theorem mem_UPPER_iff (c : Char) : c ∈ UPPER ↔ 'A' ≤ c ∧ c ≤ 'Z' := by
  constructor
  · revert c
    decide
  · rintro ⟨h1, h2⟩
    have h1n : 65 ≤ c.toNat := h1
    have h2n : c.toNat ≤ 90 := h2
    have key : ∀ n < 91, 65 ≤ n → Char.ofNat n ∈ UPPER := by decide
    have := key c.toNat (by omega) h1n
    rwa [Char.ofNat_toNat] at this

theorem mem_NUMS_iff (c : Char) : c ∈ NUMS ↔ '0' ≤ c ∧ c ≤ '9' := by
  constructor
  · revert c
    decide
  · rintro ⟨h1, h2⟩
    have h1n : 48 ≤ c.toNat := h1
    have h2n : c.toNat ≤ 57 := h2
    have key : ∀ n < 58, 48 ≤ n → Char.ofNat n ∈ NUMS := by decide
    have := key c.toNat (by omega) h1n
    rwa [Char.ofNat_toNat] at this

/-- The class of line 100 is `SYMS` and the backslash. -/
theorem mem_symClass_iff (c : Char) : c ∈ symClass ↔ c ∈ '\\' :: SYMS := by
  constructor
  · revert c
    decide
  · revert c
    decide

theorem classesPresent_eq (password : String) :
    classesPresent ('\\' :: SYMS) password = ([hasLower password, hasUpper password,
      hasNum password, hasSym password].filter id).length := by
  have e1 : (password.data.any fun c => decide (c ∈ LOWER)) = hasLower password := by
    unfold hasLower
    congr 1
    funext c
    rw [decide_eq_decide]
    exact mem_LOWER_iff c
  have e2 : (password.data.any fun c => decide (c ∈ UPPER)) = hasUpper password := by
    unfold hasUpper
    congr 1
    funext c
    rw [decide_eq_decide]
    exact mem_UPPER_iff c
  have e3 : (password.data.any fun c => decide (c ∈ NUMS)) = hasNum password := by
    unfold hasNum
    congr 1
    funext c
    rw [decide_eq_decide]
    exact mem_NUMS_iff c
  have e4 : (password.data.any fun c => decide (c ∈ '\\' :: SYMS)) = hasSym password := by
    unfold hasSym
    congr 1
    funext c
    rw [decide_eq_decide]
    exact (mem_symClass_iff c).symm
  unfold classesPresent
  simp only [List.filter, e1, e2, e3, e4]
  cases hasLower password <;> cases hasUpper password <;> cases hasNum password <;>
    cases hasSym password <;> rfl

theorem score_eq_estimateScore (password : String) :
    score password = estimateScore ('\\' :: SYMS) password := by
  unfold score estimateScore
  rw [classesPresent_eq]
  simp only []
  split_ifs <;> omega

theorem score_le (password : String) : score password ≤ 6 := by
  rw [score_eq_estimateScore]
  unfold estimateScore
  split_ifs <;> omega

theorem round_pct (s : Nat) (hs : s ≤ 6) : round ((s : ℚ) / 6 * 100) = (pctOf s : Int) := by
  rw [round_eq, Int.floor_eq_iff]
  interval_cases s <;> norm_num [pctOf]

theorem jsLength_eq_zero_iff (password : String) : jsLength password = 0 ↔ password.data = [] := by
  unfold jsLength
  cases password.data with
  | nil => simp
  | cons c rest =>
    simp only [List.map_cons, List.sum_cons]
    constructor
    · intro h
      split_ifs at h <;> omega
    · intro h
      cases h

/-- On characters below `U+10000`, in particular on ASCII text, the JavaScript length is the
number of characters. -/
theorem jsLength_eq_length (password : String) (h : ∀ c ∈ password.data, c.toNat < 0x10000) :
    jsLength password = password.length := by
  have key : ∀ l : List Char, (∀ c ∈ l, c.toNat < 0x10000) →
      (l.map (fun c => if c.toNat < 0x10000 then 1 else 2)).sum = l.length := by
    intro l
    induction l with
    | nil => intro _; rfl
    | cons c rest ih =>
      intro hl
      rw [List.map_cons, List.sum_cons, ih (fun x hx => hl x (List.mem_cons_of_mem _ hx)),
        if_pos (hl c (List.mem_cons_self _ _)), List.length_cons]
      omega
  exact key password.data h

theorem updateStrength_barWidth (d : Dom) (password : String) :
    (updateStrength d password).barWidth =
      if password.data = [] ∨ "Choose".data.isPrefixOf password.data ∨ jsLength password = 0
      then 0 else pctOf (score password) := by
  simp only [updateStrength]
  split_ifs <;> rfl

theorem updateStrength_strengthText (d : Dom) (password : String) :
    (updateStrength d password).strengthText =
      if password.data = [] ∨ "Choose".data.isPrefixOf password.data ∨ jsLength password = 0
      then "—"
      else if pctOf (score password) ≥ 80 then "Excellent"
      else if pctOf (score password) ≥ 60 then "Strong"
      else if pctOf (score password) ≥ 40 then "Medium"
      else "Weak" := by
  simp only [updateStrength]
  split_ifs <;> rfl

/-- C4, as stated, fails: the text `Choose at least one character type`, which
`updateStrength` receives from the page after an empty selection, is not empty; the
reference estimator gives it the score `3 + 2 = 5`, the percentage `83` and the label
`Excellent`, and `updateStrength` sets the percentage `0` and the placeholder label. -/
theorem updateStrength_Choose_differs :
    estimateScore SYMS "Choose at least one character type" = 5 ∧
      estimate SYMS "Choose at least one character type" =
        { percentage := 83, label := "Excellent" } ∧
      (updateStrength sampleDom "Choose at least one character type").barWidth = 0 ∧
      (updateStrength sampleDom "Choose at least one character type").strengthText = "—" := by
  have hs : estimateScore SYMS "Choose at least one character type" = 5 := by decide
  refine ⟨hs, ?_, by decide, by decide⟩
  have hr : round (((5 : Nat) : ℚ) / 6 * 100) = 83 := round_pct 5 (by decide)
  unfold estimate
  rw [if_neg (by decide), hs, hr]
  rfl

/-- C4, amended: `updateStrength` is a function of the password only.  A password that is
empty or starts with `Choose` gets the percentage `0` and the placeholder label.  Every
other password gets the percentage and the label of the reference estimator in which a
symbol is a character of `SYMS` or a backslash and the length is counted in UTF-16 code
units: the score is the number of the thresholds `8`, `12`, `16` that the length reaches plus the number of classes present capped at `3`,
it is at most `6`, the percentage is `round (score / 6 * 100)` and the label is
`Excellent` from `80`, `Strong` from `60`, `Medium` from `40` and `Weak` below. -/
theorem updateStrength_eq_estimate (d : Dom) (password : String) :
    estimateScore ('\\' :: SYMS) password ≤ 6 ∧
      ((updateStrength d password).barWidth : Int) =
        (if "Choose".data <+: password.data then 0
          else (estimate ('\\' :: SYMS) password).percentage) ∧
      (updateStrength d password).strengthText =
        (if "Choose".data <+: password.data then "—"
          else (estimate ('\\' :: SYMS) password).label) := by
  have hle := score_le password
  have hsc := score_eq_estimateScore password
  have hround := round_pct (score password) hle
  rw [hsc] at hround hle
  refine ⟨hle, ?_, ?_⟩
  · rw [updateStrength_barWidth]
    by_cases hp : "Choose".data <+: password.data
    · have hp2 : "Choose".data.isPrefixOf password.data = true :=
        List.isPrefixOf_iff_prefix.mpr hp
      simp [hp, hp2]
    · have hp2 : ¬ "Choose".data.isPrefixOf password.data = true :=
        fun h => hp (List.isPrefixOf_iff_prefix.mp h)
      rw [if_neg hp]
      by_cases he : password = ""
      · subst he
        simp [estimate]
      · have hd : password.data ≠ [] := fun h => he (String.ext h)
        have hl : jsLength password ≠ 0 := fun h => hd ((jsLength_eq_zero_iff password).mp h)
        rw [if_neg (by tauto)]
        simp only [estimate, if_neg he, hround, hsc]
  · rw [updateStrength_strengthText]
    by_cases hp : "Choose".data <+: password.data
    · have hp2 : "Choose".data.isPrefixOf password.data = true :=
        List.isPrefixOf_iff_prefix.mpr hp
      simp [hp, hp2]
    · have hp2 : ¬ "Choose".data.isPrefixOf password.data = true :=
        fun h => hp (List.isPrefixOf_iff_prefix.mp h)
      rw [if_neg hp]
      by_cases he : password = ""
      · subst he
        simp [estimate]
      · have hd : password.data ≠ [] := fun h => he (String.ext h)
        have hl : jsLength password ≠ 0 := fun h => hd ((jsLength_eq_zero_iff password).mp h)
        rw [if_neg (by tauto)]
        simp only [estimate, if_neg he, hround, estimateLabel, hsc]
        norm_cast

/-- C5: on `Abcdefgh123!`, of length `12` and with a character of each of the four
classes, `updateStrength` computes the score `2 + 3 = 5`, the percentage `83` and the
label `Excellent`. -/
theorem updateStrength_example (d : Dom) :
    "Abcdefgh123!".length = 12 ∧ jsLength "Abcdefgh123!" = 12 ∧
      hasLower "Abcdefgh123!" = true ∧ hasUpper "Abcdefgh123!" = true ∧
      hasNum "Abcdefgh123!" = true ∧ hasSym "Abcdefgh123!" = true ∧
      score "Abcdefgh123!" = 2 + 3 ∧
      (updateStrength d "Abcdefgh123!").barWidth = 83 ∧
      (updateStrength d "Abcdefgh123!").strengthText = "Excellent" := by
  refine ⟨by decide, by decide, by decide, by decide, by decide, by decide, by decide, ?_, ?_⟩
  · rw [updateStrength_barWidth]
    decide
  · rw [updateStrength_strengthText]
    decide

/-! ## The shuffle -/

theorem swap_getElem? {α : Type} (a : List α) {i j : Nat} (hi : i < a.length)
    (hj : j < a.length) (m : Nat) :
    (swap a i j)[m]? = if m = j then a[i]? else if m = i then a[j]? else a[m]? := by
  rw [swap_eq_of_lt a hi hj, List.getElem?_set, List.getElem?_set]
  simp only [List.length_set]
  by_cases h1 : j = m
  · subst h1
    simp [hj]
  · have h1b : ¬ m = j := fun h => h1 h.symm
    rw [if_neg h1, if_neg h1b]
    by_cases h2 : i = m
    · subst h2
      simp [hi]
    · have h2b : ¬ m = i := fun h => h2 h.symm
      rw [if_neg h2, if_neg h2b]

/-- The iterations from `i` down to `1` leave the elements above `i` where they are. -/
theorem fisherYates_getElem?_above {α : Type} (pick : Nat → Nat) (i : Nat) (a : List α)
    (hpick : ∀ k, 1 ≤ k → k ≤ i → pick k ≤ k) (hi : i < a.length) (m : Nat) (hm : i < m) :
    (fisherYates pick i a)[m]? = a[m]? := by
  induction i generalizing a with
  | zero => rfl
  | succ i ih =>
    have hj : pick (i + 1) ≤ i + 1 := hpick (i + 1) (by omega) (by omega)
    rw [fisherYates, ih _ (fun k h1 h2 => hpick k h1 (by omega))
      (by rw [swap_length]; omega) (by omega),
      swap_getElem? a hi (by omega : pick (i + 1) < a.length)]
    rw [if_neg (by omega), if_neg (by omega)]

/-- The element that ends at index `i + 1` is the one the first swap puts there. -/
theorem fisherYates_getElem?_top {α : Type} (pick : Nat → Nat) (i : Nat) (a : List α)
    (hpick : ∀ k, 1 ≤ k → k ≤ i + 1 → pick k ≤ k) (hi : i + 1 < a.length) :
    (fisherYates pick (i + 1) a)[i + 1]? = a[pick (i + 1)]? := by
  have hj : pick (i + 1) ≤ i + 1 := hpick (i + 1) (by omega) (by omega)
  rw [fisherYates, fisherYates_getElem?_above pick i _ (fun k h1 h2 => hpick k h1 (by omega))
    (by rw [swap_length]; omega) (i + 1) (by omega),
    swap_getElem? a hi (by omega : pick (i + 1) < a.length)]
  by_cases h : i + 1 = pick (i + 1)
  · rw [if_pos h, ← h]
  · rw [if_neg h, if_pos rfl]

/-- The loop started at `i` only looks at the swap indices of `1, ..., i`. -/
theorem fisherYates_congr {α : Type} (pick pick2 : Nat → Nat) (i : Nat) (a : List α)
    (h : ∀ k, 1 ≤ k → k ≤ i → pick k = pick2 k) :
    fisherYates pick i a = fisherYates pick2 i a := by
  induction i generalizing a with
  | zero => rfl
  | succ i ih =>
    rw [fisherYates, fisherYates, h (i + 1) (by omega) (by omega)]
    exact ih _ (fun k h1 h2 => h k h1 (by omega))

theorem getElem?_inj_of_nodup {α : Type} {a : List α} (hnd : a.Nodup) {j k : Nat}
    (hj : j < a.length) (hk : k < a.length) (h : a[j]? = a[k]?) : j = k := by
  rw [List.getElem?_eq_getElem hj, List.getElem?_eq_getElem hk] at h
  exact (List.Nodup.getElem_inj_iff hnd).mp (Option.some.inj h)

/-- On distinct elements, two sequences of swap indices with the same result agree. -/
theorem fisherYates_injective {α : Type} (pick pick2 : Nat → Nat) (i : Nat) (a : List α)
    (hnd : a.Nodup) (hi : i < a.length)
    (hpick : ∀ k, 1 ≤ k → k ≤ i → pick k ≤ k) (hpick2 : ∀ k, 1 ≤ k → k ≤ i → pick2 k ≤ k)
    (heq : fisherYates pick i a = fisherYates pick2 i a) :
    ∀ k, 1 ≤ k → k ≤ i → pick k = pick2 k := by
  induction i generalizing a with
  | zero =>
    intro k h1 h2
    omega
  | succ i ih =>
    have hj : pick (i + 1) ≤ i + 1 := hpick (i + 1) (by omega) (by omega)
    have hj2 : pick2 (i + 1) ≤ i + 1 := hpick2 (i + 1) (by omega) (by omega)
    have htop : a[pick (i + 1)]? = a[pick2 (i + 1)]? := by
      rw [← fisherYates_getElem?_top pick i a hpick hi,
        ← fisherYates_getElem?_top pick2 i a hpick2 hi, heq]
    have hsame : pick (i + 1) = pick2 (i + 1) :=
      getElem?_inj_of_nodup hnd (by omega) (by omega) htop
    have hrest := ih (swap a (i + 1) (pick (i + 1)))
      ((swap_perm a _ _).nodup_iff.mpr hnd) (by rw [swap_length]; omega)
      (fun k h1 h2 => hpick k h1 (by omega)) (fun k h1 h2 => hpick2 k h1 (by omega))
      (by
        have := heq
        rw [fisherYates, fisherYates, ← hsame] at this
        exact this)
    intro k h1 h2
    by_cases hk : k = i + 1
    · rw [hk]
      exact hsame
    · exact hrest k h1 (by omega)

/-- On distinct elements, if an ordering `ys` of `a` agrees with `a` above `i`, then the
element of `ys` at index `i` sits in `a` at an index `j ≤ i`. -/
theorem locate_below {α : Type} (i : Nat) (a ys : List α) (hnd : a.Nodup)
    (hi : i < a.length) (hperm : ys.Perm a) (habove : ∀ m, i < m → ys[m]? = a[m]?) :
    ∃ j, j ≤ i ∧ a[j]? = ys[i]? := by
  have hlen : ys.length = a.length := hperm.length_eq
  have hndy : ys.Nodup := hperm.nodup_iff.mpr hnd
  have hmem : ys[i] ∈ a := hperm.mem_iff.mp (List.getElem_mem (by omega))
  obtain ⟨j, hj, hjeq⟩ := List.getElem_of_mem hmem
  refine ⟨j, ?_, ?_⟩
  · by_contra hcon
    have h1 : ys[j]? = ys[i]? := by
      rw [habove j (by omega), List.getElem?_eq_getElem hj, hjeq,
        List.getElem?_eq_getElem (by omega : i < ys.length)]
    have := getElem?_inj_of_nodup hndy (by omega) (by omega) h1
    omega
  · rw [List.getElem?_eq_getElem hj, hjeq, List.getElem?_eq_getElem (by omega : i < ys.length)]

/-- On distinct elements, an ordering that agrees with the array above `i` is reached by
the iterations from `i` down to `1` for suitable swap indices. -/
theorem fisherYates_surjective {α : Type} (i : Nat) (a ys : List α) (hnd : a.Nodup)
    (hi : i < a.length) (hperm : ys.Perm a) (habove : ∀ m, i < m → ys[m]? = a[m]?) :
    ∃ pick : Nat → Nat, (∀ k, pick k ≤ k) ∧ fisherYates pick i a = ys := by
  induction i generalizing a with
  | zero =>
    obtain ⟨j, hj, hjeq⟩ := locate_below 0 a ys hnd hi hperm habove
    have hj0 : j = 0 := by omega
    subst hj0
    refine ⟨fun _ => 0, fun k => Nat.zero_le k, ?_⟩
    rw [fisherYates]
    apply List.ext_getElem?
    intro m
    cases m with
    | zero => exact hjeq
    | succ m => exact (habove (m + 1) (by omega)).symm
  | succ i ih =>
    obtain ⟨j, hj, hjeq⟩ := locate_below (i + 1) a ys hnd hi hperm habove
    have hsw : ∀ m, (swap a (i + 1) j)[m]? =
        if m = j then a[i + 1]? else if m = i + 1 then a[j]? else a[m]? :=
      swap_getElem? a hi (by omega)
    have habove2 : ∀ m, i < m → ys[m]? = (swap a (i + 1) j)[m]? := by
      intro m hm
      rw [hsw m]
      by_cases h1 : m = i + 1
      · subst h1
        by_cases h2 : i + 1 = j
        · rw [if_pos h2, ← hjeq, ← h2]
        · rw [if_neg h2, if_pos rfl, hjeq]
      · rw [if_neg (by omega), if_neg h1]
        exact habove m (by omega)
    have hnd2 : (swap a (i + 1) j).Nodup := (swap_perm a _ _).nodup_iff.mpr hnd
    have hperm2 : ys.Perm (swap a (i + 1) j) := hperm.trans (swap_perm a _ _).symm
    have hlen2 : i < (swap a (i + 1) j).length := by rw [swap_length]; omega
    obtain ⟨pick0, hpick0, hres⟩ := ih (swap a (i + 1) j) hnd2 hlen2 hperm2 habove2
    refine ⟨fun k => if k = i + 1 then j else pick0 k, ?_, ?_⟩
    · intro k
      show (if k = i + 1 then j else pick0 k) ≤ k
      by_cases hk : k = i + 1
      · rw [if_pos hk]
        omega
      · rw [if_neg hk]
        exact hpick0 k
    · rw [fisherYates]
      simp only [if_true]
      rw [← hres]
      apply fisherYates_congr
      intro k h1 h2
      show (if k = i + 1 then j else pick0 k) = pick0 k
      rw [if_neg (by omega)]

/-- C6: for every sequence of characters and every sequence of draws `j_i` with
`0 ≤ j_i ≤ i`, every swap of the loop is between two indices of the array and the loop
yields a permutation of its input: each character occurs as often after the shuffle as
before, and the length is the same. -/
theorem shuffle_perm (a : List Char) (js : List Nat) (hjs : ValidDraws a.length js) :
    (∀ i, 1 ≤ i → i < a.length → drawAt js a.length i < a.length) ∧
      (shuffle a js).Perm a ∧ (∀ c, (shuffle a js).count c = a.count c) ∧
      (shuffle a js).length = a.length := by
  have hp : (shuffle a js).Perm a := fisherYates_perm _ _ _
  refine ⟨fun i h1 h2 => ?_, hp, fun c => hp.count_eq c, hp.length_eq⟩
  have := hjs.2 i h2 h1
  omega

theorem drawAt_ofFn (pick : Nat → Nat) (n i : Nat) (h1 : 1 ≤ i) (h2 : i < n) :
    drawAt ((List.range (n - 1)).map (fun t => pick (n - 1 - t))) n i = pick i := by
  unfold drawAt
  rw [List.getD_eq_getElem _ _ (by simp; omega)]
  simp only [List.getElem_map, List.getElem_range]
  congr 1
  omega

theorem shuffle_exists (xs ys : List Char) (hnd : xs.Nodup) (hperm : ys.Perm xs) :
    ∃ js, ValidDraws xs.length js ∧ shuffle xs js = ys := by
  by_cases hn : xs.length = 0
  · have hx : xs = [] := List.length_eq_zero.mp hn
    subst hx
    refine ⟨[], ⟨rfl, fun i h2 _ => absurd h2 (Nat.not_lt_zero i)⟩, ?_⟩
    exact (List.perm_nil.mp hperm).symm
  · have hlen : ys.length = xs.length := hperm.length_eq
    obtain ⟨pick, hpick, hres⟩ := fisherYates_surjective (xs.length - 1) xs ys hnd (by omega)
      hperm (fun m hm => by
        rw [List.getElem?_eq_none (by omega), List.getElem?_eq_none (by omega)])
    refine ⟨(List.range (xs.length - 1)).map (fun t => pick (xs.length - 1 - t)), ⟨?_, ?_⟩, ?_⟩
    · simp
    · intro i h2 h1
      rw [drawAt_ofFn pick _ i h1 h2]
      exact hpick i
    · unfold shuffle
      rw [← hres]
      apply fisherYates_congr
      intro k h1 h2
      exact drawAt_ofFn pick _ k h1 (by omega)

theorem shuffle_unique (xs : List Char) (hnd : xs.Nodup) (js1 js2 : List Nat)
    (h1 : ValidDraws xs.length js1) (h2 : ValidDraws xs.length js2)
    (heq : shuffle xs js1 = shuffle xs js2) : js1 = js2 := by
  by_cases hn : xs.length = 0
  · have e1 : js1.length = 0 := by rw [h1.1, hn]
    have e2 : js2.length = 0 := by rw [h2.1, hn]
    rw [List.length_eq_zero.mp e1, List.length_eq_zero.mp e2]
  · have key := fisherYates_injective (drawAt js1 xs.length) (drawAt js2 xs.length)
      (xs.length - 1) xs hnd (by omega) (fun k hk1 hk2 => h1.2 k (by omega) hk1)
      (fun k hk1 hk2 => h2.2 k (by omega) hk1) heq
    apply List.ext_getElem (by rw [h1.1, h2.1])
    intro t ht1 ht2
    have hl1 := h1.1
    have hl2 := h2.1
    have := key (xs.length - 1 - t) (by omega) (by omega)
    unfold drawAt at this
    rw [show xs.length - 1 - (xs.length - 1 - t) = t by omega,
      List.getD_eq_getElem _ _ ht1, List.getD_eq_getElem _ _ ht2] at this
    exact this

/-- C9: for a sequence of `n` pairwise distinct characters, the loop maps the sequences
of draws `(j_{n-1}, ..., j_1)` with `0 ≤ j_i ≤ i` bijectively onto the orderings of the
sequence: every result is an ordering, and every ordering is the result of exactly one
sequence of draws.  The orderings are the `n!` distinct members of `xs.permutations`. -/
theorem shuffle_bijective (xs : List Char) (hnd : xs.Nodup) :
    (∀ js, ValidDraws xs.length js → (shuffle xs js).Perm xs) ∧
      (∀ ys, ys.Perm xs → ∃! js, ValidDraws xs.length js ∧ shuffle xs js = ys) ∧
      (∀ ys, ys ∈ xs.permutations ↔ ys.Perm xs) ∧
      xs.permutations.Nodup ∧ xs.permutations.length = xs.length.factorial := by
  refine ⟨fun js _ => fisherYates_perm _ _ _, ?_, fun ys => List.mem_permutations,
    List.nodup_permutations xs hnd, List.length_permutations xs⟩
  intro ys hperm
  obtain ⟨js, hv, hres⟩ := shuffle_exists xs ys hnd hperm
  refine ⟨js, ⟨hv, hres⟩, ?_⟩
  rintro js2 ⟨hv2, hres2⟩
  exact shuffle_unique xs hnd js2 js hv2 hv (hres2.trans hres.symm)

theorem drawAt_map_range (f : Nat → Nat) (n i : Nat) (h1 : 1 ≤ i) (h2 : i < n) :
    drawAt ((List.range (n - 1)).map f) n i = f (n - 1 - i) := by
  unfold drawAt
  rw [List.getD_eq_getElem _ _ (by simp; omega)]
  simp only [List.getElem_map, List.getElem_range]

/-- The shuffle inside `generatePassword` is `shuffle` on the seeded and filled array, with
the draws `secureRandomInt(n), secureRandomInt(n - 1), ..., secureRandomInt(2)` listed in
the order of the calls; they form a valid sequence of draws. -/
theorem passwordChars_eq_shuffle (d : Dom) (rs : Nat → Nat) :
    let filled := seedChars rs (chosenSets d) 0 ++ fillChars rs (pool d)
      (fillCount d.length (chosenSets d).length) (chosenSets d).length
    let n := filled.length
    let js := (List.range (n - 1)).map (fun t => secureRandomInt (rs (n + t)) (n - t))
    ValidDraws n js ∧ passwordChars d rs = shuffle filled js := by
  intro filled n js
  have hdraw : ∀ i, 1 ≤ i → i < n →
      drawAt js n i = secureRandomInt (rs (n + (n - 1 - i))) (i + 1) := by
    intro i h1 h2
    rw [drawAt_map_range _ n i h1 h2]
    congr 1
    omega
  refine ⟨⟨by simp [js], ?_⟩, ?_⟩
  · intro i h2 h1
    rw [hdraw i h1 h2]
    exact Nat.lt_succ_iff.mp (secureRandomInt_lt _ (i + 1) (Nat.succ_pos i))
  · unfold passwordChars shuffle
    simp only [seedChars_length]
    apply fisherYates_congr
    intro k h1 h2
    have h3 : k ≤ n - 1 := h2
    have h4 : 1 ≤ n := Nat.le_trans h1 (Nat.le_trans h3 (Nat.sub_le n 1))
    exact (hdraw k h1 (Nat.lt_of_le_of_lt h3 (Nat.sub_lt h4 Nat.one_pos))).symm

/-! ## The theorems at concrete inputs -/

/-- C1 at a page with the four boxes checked and the requested length `12`. -/
theorem generatePassword_length_witness :
    sampleDom.length = some 12 ∧ 1 ≤ enabledCount sampleDom ∧
      ∃ password, (generatePassword sampleDom (fun n => 7 * n + 3)).ret = some password ∧
        ((enabledCount sampleDom : Int) ≤ 12 → (password.length : Int) = 12) ∧
        ((12 : Int) < (enabledCount sampleDom : Int) →
          password.length = enabledCount sampleDom) ∧
        max (12 : Int) (enabledCount sampleDom : Int) ≤ (password.length : Int) :=
  ⟨rfl, by decide,
    generatePassword_length sampleDom (fun n => 7 * n + 3) 12 rfl (by decide)⟩

/-- C2 at a page with the four boxes checked. -/
theorem generatePassword_covers_witness :
    1 ≤ enabledCount sampleDom ∧
      ∃ password, (generatePassword sampleDom (fun n => 7 * n + 3)).ret = some password ∧
        (sampleDom.lower = true → ∃ c ∈ password.data, c ∈ LOWER) ∧
        (sampleDom.upper = true → ∃ c ∈ password.data, c ∈ UPPER) ∧
        (sampleDom.nums = true → ∃ c ∈ password.data, c ∈ NUMS) ∧
        (sampleDom.syms = true → ∃ c ∈ password.data, c ∈ SYMS) :=
  ⟨by decide, generatePassword_covers sampleDom (fun n => 7 * n + 3) (by decide)⟩

/-- C3 at a page with no box checked. -/
theorem generatePassword_no_selection_witness :
    (noSelectionDom.lower = false ∧ noSelectionDom.upper = false ∧
        noSelectionDom.nums = false ∧ noSelectionDom.syms = false) ∧
      (generatePassword noSelectionDom (fun n => 7 * n + 3)).ret = none ∧
      (generatePassword noSelectionDom (fun n => 7 * n + 3)).draws = 0 ∧
      (generatePassword noSelectionDom (fun n => 7 * n + 3)).dom = { noSelectionDom with
        pw := "Choose at least one character type"
        barWidth := 0
        barBackground := if noSelectionDom.danger = "" then "#ef4444" else noSelectionDom.danger
        strengthText := "N/A" } :=
  ⟨⟨rfl, rfl, rfl, rfl⟩,
    generatePassword_no_selection noSelectionDom (fun n => 7 * n + 3) ⟨rfl, rfl, rfl, rfl⟩⟩

/-- C10 at a page with only the box of the lowercase letters checked. -/
theorem generatePassword_chars_in_pool_witness :
    1 ≤ enabledCount zeroLengthDom ∧
      ∃ password, (generatePassword zeroLengthDom (fun n => 7 * n + 3)).ret = some password ∧
        ∀ c ∈ password.data, c ∈ pool zeroLengthDom ∧
          (c ∈ LOWER → zeroLengthDom.lower = true) ∧
          (c ∈ UPPER → zeroLengthDom.upper = true) ∧ (c ∈ NUMS → zeroLengthDom.nums = true) ∧
          (c ∈ SYMS → zeroLengthDom.syms = true) :=
  ⟨by decide, generatePassword_chars_in_pool zeroLengthDom (fun n => 7 * n + 3) (by decide)⟩

/-- C8, amended, at a page with one box checked and the requested length `0`. -/
theorem generatePassword_nonpositive_length_witness :
    zeroLengthDom.length = some 0 ∧ (0 : Int) ≤ 0 ∧ 1 ≤ enabledCount zeroLengthDom ∧
      ∃ password, (generatePassword zeroLengthDom (fun n => 7 * n + 3)).ret = some password ∧
        (generatePassword zeroLengthDom (fun n => 7 * n + 3)).dom.pw = password ∧
        password.length = enabledCount zeroLengthDom :=
  ⟨rfl, by decide, by decide,
    generatePassword_nonpositive_length zeroLengthDom (fun n => 7 * n + 3) 0 rfl (by decide)
      (by decide)⟩

/-- C6 on the array `a, b, c` with the draws `j_2 = 1`, `j_1 = 0`. -/
theorem shuffle_perm_witness :
    ValidDraws ['a', 'b', 'c'].length [1, 0] ∧
      (∀ i, 1 ≤ i → i < ['a', 'b', 'c'].length →
        drawAt [1, 0] ['a', 'b', 'c'].length i < ['a', 'b', 'c'].length) ∧
      (shuffle ['a', 'b', 'c'] [1, 0]).Perm ['a', 'b', 'c'] ∧
      (∀ c, (shuffle ['a', 'b', 'c'] [1, 0]).count c = ['a', 'b', 'c'].count c) ∧
      (shuffle ['a', 'b', 'c'] [1, 0]).length = ['a', 'b', 'c'].length :=
  ⟨by decide, shuffle_perm ['a', 'b', 'c'] [1, 0] (by decide)⟩

/-- C9 on the array `a, b, c`. -/
theorem shuffle_bijective_witness :
    ['a', 'b', 'c'].Nodup ∧
      (∀ ys : List Char, ys.Perm ['a', 'b', 'c'] →
        ∃! js, ValidDraws ['a', 'b', 'c'].length js ∧ shuffle ['a', 'b', 'c'] js = ys) :=
  ⟨by decide, (shuffle_bijective ['a', 'b', 'c'] (by decide)).2.1⟩

/-- C7: for a positive bound and a 32-bit draw `r`, `secureRandomInt` returns `r % max`,
a number below `max`.  In `generatePassword` with at least one checked box, the index
into a chosen set is below the length of the set, the index into the pool is below the
length of the pool, and no element of the array is `undefined` when it is joined.  The
shuffle of `generatePassword` is the loop run on the seeded and filled array with the
values of `secureRandomInt(n), ..., secureRandomInt(2)` as swap indices, and the swap
index `j` of the iteration with index `i` satisfies `0 ≤ j ≤ i`. -/
theorem secureRandomInt_in_range (d : Dom) (rs : Nat → Nat) (hk : 1 ≤ enabledCount d) :
    (∀ r max : Nat, 0 < max → r < 2 ^ 32 →
      secureRandomInt r max = r % max ∧ secureRandomInt r max < max) ∧
    (∀ set ∈ chosenSets d, ∀ r, secureRandomInt r set.length < set.length) ∧
    (∀ r, secureRandomInt r (pool d).length < (pool d).length) ∧
    (∀ r i, secureRandomInt r (i + 1) ≤ i) ∧
    (∀ x ∈ passwordChars d rs, x ≠ none) ∧
    (let filled := seedChars rs (chosenSets d) 0 ++ fillChars rs (pool d)
        (fillCount d.length (chosenSets d).length) (chosenSets d).length
      let n := filled.length
      let js := (List.range (n - 1)).map (fun t => secureRandomInt (rs (n + t)) (n - t))
      ValidDraws n js ∧ passwordChars d rs = shuffle filled js ∧
        ∀ i, 1 ≤ i → i < n →
          drawAt js n i = secureRandomInt (rs (n + (n - 1 - i))) (i + 1) ∧
            drawAt js n i ≤ i) := by
  have hne : pool d ≠ [] := by
    rw [Ne, pool_eq_nil_iff]
    omega
  refine ⟨?_, ?_, ?_, ?_, ?_, ?_⟩
  · intro r max hmax hr
    refine ⟨?_, secureRandomInt_lt r max hmax⟩
    unfold secureRandomInt
    rw [Nat.mod_eq_of_lt hr]
  · intro set hset r
    exact secureRandomInt_lt _ _ (List.length_pos.mpr (chosenSets_ne_nil d set hset))
  · intro r
    exact secureRandomInt_lt _ _ (List.length_pos.mpr hne)
  · intro r i
    exact Nat.lt_succ_iff.mp (secureRandomInt_lt r (i + 1) (Nat.succ_pos i))
  · intro x hx hnone
    obtain ⟨c, hc, _⟩ := passwordChars_mem d rs hne x hx
    rw [hnone] at hc
    cases hc
  · intro filled n js
    obtain ⟨hvalid, heq⟩ := passwordChars_eq_shuffle d rs
    refine ⟨hvalid, heq, ?_⟩
    intro i h1 h2
    have hdraw : drawAt js n i = secureRandomInt (rs (n + (n - 1 - i))) (i + 1) := by
      rw [drawAt_map_range _ n i h1 h2]
      congr 1
      omega
    exact ⟨hdraw, hvalid.2 i h2 h1⟩

/-- C7 at a page with the four boxes checked. -/
theorem secureRandomInt_in_range_witness :
    1 ≤ enabledCount sampleDom ∧
      (∀ r max : Nat, 0 < max → r < 2 ^ 32 →
        secureRandomInt r max = r % max ∧ secureRandomInt r max < max) ∧
      (∀ x ∈ passwordChars sampleDom (fun n => 7 * n + 3), x ≠ none) ∧
      (∃ filled js, ValidDraws filled.length js ∧
        passwordChars sampleDom (fun n => 7 * n + 3) = shuffle filled js) :=
  ⟨by decide,
    (secureRandomInt_in_range sampleDom (fun n => 7 * n + 3) (by decide)).1,
    (secureRandomInt_in_range sampleDom (fun n => 7 * n + 3) (by decide)).2.2.2.2.1,
    ⟨_, _, (secureRandomInt_in_range sampleDom (fun n => 7 * n + 3) (by decide)).2.2.2.2.2.1,
      (secureRandomInt_in_range sampleDom (fun n => 7 * n + 3) (by decide)).2.2.2.2.2.2.1⟩⟩

end PasswordGenerator
